import Mathlib

/-!
# scale_down (cpp_optimization_example/main.cc)

A shallow embedding of

    void scale_down(std::vector<double>& v, const double& a) {
        for (auto& item : v) {
            item /= a;
        }
    }

    void scale_down_example() {
        std::vector<double> v {2, 1, 2, 3, 4};
        scale_down(v, v[0]);
    }

The vector is a list of binary64 values, the reference parameter `a` is a
location (an element of the vector, or a cell outside it) that is read again on
every iteration, and `/=` is IEEE-754 binary64 division in the default
rounding mode (round to nearest, ties to even).
-/

set_option exponentiation.threshold 8192

/-! ## IEEE-754 binary64 values -/

/-- A `double`: a finite value given by its sign bit, its 11-bit biased exponent
field `e` (0 for zeros and subnormals, 1..2046 for normals) and its 52-bit
fraction field `m`; an infinity with its sign; or NaN (all NaNs are identified). -/
inductive F64 where
  | finite (neg : Bool) (e : Fin 2047) (m : Fin (2 ^ 52))
  | inf (neg : Bool)
  | nan
deriving DecidableEq

namespace F64

/-- Integer significand of a finite double: the fraction field, with the hidden
bit 2^52 added for a normal number. -/
def sig (e : Fin 2047) (m : Fin (2 ^ 52)) : Nat :=
  if e.val = 0 then m.val else 2 ^ 52 + m.val

/-- Exponent of a finite double, biased so that its magnitude is
`sig e m * 2 ^ expo e / 2 ^ 1075`: subnormals share the exponent of the smallest
normal binade. -/
def expo (e : Fin 2047) : Nat :=
  if e.val = 0 then 1 else e.val

/-- The rational number a double denotes (none for infinities and NaN). -/
def toRat : F64 → Option ℚ
  | finite neg e m =>
    some ((if neg then -1 else 1) * ((sig e m : ℚ) * 2 ^ expo e / 2 ^ 1075))
  | _ => none

/-- Both zeros, +0.0 and -0.0 (C++ `x == 0`). -/
def isZero : F64 → Bool
  | finite _ e m => sig e m == 0
  | _ => false

/-- Strictly positive doubles, +infinity included (C++ `x > 0`). -/
def isPos : F64 → Bool
  | finite neg e m => !neg && sig e m != 0
  | inf neg => !neg
  | nan => false

/-- Strictly negative doubles, -infinity included (C++ `x < 0`). -/
def isNeg : F64 → Bool
  | finite neg e m => neg && sig e m != 0
  | inf neg => neg
  | nan => false

/-- Finite doubles (C++ `std::isfinite`). -/
def isFinite : F64 → Bool
  | finite _ _ _ => true
  | _ => false

/-- Number of times `n` can be divided by `2 ^ w` before it drops below `2 ^ w`
(at most `fuel` times): the floor of the base-`2 ^ w` logarithm of `n`. -/
def shiftCount (w : Nat) : Nat → Nat → Nat
  | 0, _ => 0
  | fuel + 1, n => if n < 2 ^ w then 0 else shiftCount w fuel (n / 2 ^ w) + 1

/-- Floor of the base-2 logarithm of `n` (0 for `n = 0`): the 64-bit limbs below
the leading one are counted first, then the bits of the leading limb. Dividing
`k` times always suffices for a number `k`. -/
def ilog2 (n : Nat) : Nat :=
  let limbs := shiftCount 64 n n
  let top := n / 2 ^ (64 * limbs)
  limbs * 64 + shiftCount 1 top top

/-- The integer nearest to `a / b`, a tie going to the even one. -/
def rne (a b : Nat) : Nat :=
  let t := a / b
  let r := a % b
  if 2 * r < b then t
  else if b < 2 * r then t + 1
  else if t % 2 = 0 then t else t + 1

/-- Round the positive rational `n / d`, counted in units of 2^-1074 (the least
subnormal), to binary64, and return the exponent and fraction fields of the
result as one number `e * 2 ^ 52 + m`. The quantum is `2 ^ q` units, chosen so
that the rounded significand has 53 bits (`q = 0` in the subnormal range); a
significand that rounds up to `2 ^ 53` carries into the exponent field by the
addition. -/
def roundBits (n d : Nat) : Nat :=
  let q := ilog2 (n / d) - 52
  q * 2 ^ 52 + rne n (d * 2 ^ q)

/-- The double with sign `neg` and magnitude fields `b = e * 2 ^ 52 + m`; a
magnitude past the largest finite double is an infinity (overflow). -/
def ofBits (neg : Bool) (b : Nat) : F64 :=
  if h : b < 2047 * 2 ^ 52 then
    finite neg ⟨b / 2 ^ 52, by omega⟩ ⟨b % 2 ^ 52, Nat.mod_lt _ (by decide)⟩
  else inf neg

/-- IEEE-754 binary64 division `x / y`, round to nearest even. NaN operands,
inf/inf and 0/0 give NaN; a non-zero dividend over a zero gives an infinity; the
sign of every other result is the exclusive or of the operands' signs. -/
def div : F64 → F64 → F64
  | nan, _ => nan
  | _, nan => nan
  | inf _, inf _ => nan
  | inf s, finite t _ _ => inf (xor s t)
  | finite s _ _, inf t => finite (xor s t) 0 0
  | finite s ex mx, finite t ey my =>
    if sig ey my = 0 then
      if sig ex mx = 0 then nan else inf (xor s t)
    else if sig ex mx = 0 then finite (xor s t) 0 0
    else
      ofBits (xor s t)
        (roundBits (sig ex mx * 2 ^ expo ex * 2 ^ 1074) (sig ey my * 2 ^ expo ey))

/-- IEEE-754 binary64 multiplication `x * y`, round to nearest even. -/
def mul : F64 → F64 → F64
  | nan, _ => nan
  | _, nan => nan
  | inf s, inf t => inf (xor s t)
  | inf s, finite t e m => if sig e m = 0 then nan else inf (xor s t)
  | finite s e m, inf t => if sig e m = 0 then nan else inf (xor s t)
  | finite s ex mx, finite t ey my =>
    if sig ex mx = 0 ∨ sig ey my = 0 then finite (xor s t) 0 0
    else
      ofBits (xor s t)
        (roundBits (sig ex mx * sig ey my * 2 ^ (expo ex + expo ey)) (2 ^ 1076))

/-- Conversion of a non-negative integer literal to `double`. -/
def ofNat (n : Nat) : F64 :=
  if n = 0 then finite false 0 0 else ofBits false (roundBits (n * 2 ^ 1074) 1)

instance : Div F64 := ⟨div⟩

instance : Mul F64 := ⟨mul⟩

instance (n : Nat) : OfNat F64 n := ⟨ofNat n⟩

/-- The double 0.5. -/
def half : F64 := finite false 1022 0

/-- The double 1.5. -/
def oneAndHalf : F64 := finite false 1023 ⟨2 ^ 51, by decide⟩

/-- The doubles whose quotient by the power of two with exponent field `r` is
computed without rounding, overflow or underflow: NaN, the infinities, the
zeros, and the normal doubles whose quotient is again normal. -/
def exactQuot (r : Nat) : F64 → Bool
  | finite _ e m =>
    sig e m == 0 || (e.val != 0 && decide (r < e.val + 1023) && decide (e.val ≤ r + 1023))
  | _ => true

end F64

/-! ## The program -/

/-- The storage a `const double&` argument is bound to: the element `v[k]` of
the vector that `scale_down` mutates, or a double that lives outside it. -/
inductive Ref where
  | elem (k : Nat)
  | ext (d : F64)
deriving DecidableEq

/-- Reading through the reference in memory state `v`. A reference to an
element past the end of the vector has no defined value. -/
def deref (v : List F64) : Ref → Option F64
  | Ref.elem k => v[k]?
  | Ref.ext d => some d

/-- A reference the caller may pass: any outside cell, or an element in range. -/
def RefOk (v : List F64) : Ref → Prop
  | Ref.elem k => k < v.length
  | Ref.ext _ => True

/-- Whether a reference is one the caller may pass is decidable. -/
instance (v : List F64) (a : Ref) : Decidable (RefOk v a) :=
  match a with
  | Ref.elem k => inferInstanceAs (Decidable (k < v.length))
  | Ref.ext _ => inferInstanceAs (Decidable True)

/-- One executed `item /= a`: the position written and the two operands read. -/
structure DivOp where
  index : Nat
  dividend : F64
  divisor : F64
deriving DecidableEq

/-- The range-for loop of `scale_down`, with `n` elements still to visit, the
iterator at index `i` and the vector contents `v`. Every iteration reads
`item = v[i]`, reads the divisor through `a` from the current contents, and
stores `item / a` at index `i`. The list `log` is ghost state: it records the
divisions executed so far and has no influence on the contents. -/
def scale_down_loop (a : Ref) : Nat → Nat → List F64 → List DivOp →
    Option (List F64 × List DivOp)
  | 0, _, v, log => some (v, log)
  | n + 1, i, v, log =>
    match v[i]?, deref v a with
    | some item, some d =>
      scale_down_loop a n (i + 1) (v.set i (item / d)) (log ++ [⟨i, item, d⟩])
    | _, _ => none

/-- Running `scale_down(v, a)`: the final contents of `v` and the divisions
executed, in order. The loop visits `begin() .. end()`, that is `v.size()`
elements from index 0. -/
def scale_down_run (v : List F64) (a : Ref) : Option (List F64 × List DivOp) :=
  scale_down_loop a v.length 0 v []

/-- The contents of `v` after `scale_down(v, a)`. -/
def scale_down (v : List F64) (a : Ref) : Option (List F64) :=
  (scale_down_run v a).map Prod.fst

/-- The contents of `v` at the end of `scale_down_example`: `v {2, 1, 2, 3, 4}`
after `scale_down(v, v[0])`. -/
def scale_down_example : Option (List F64) :=
  scale_down [2, 1, 2, 3, 4] (Ref.elem 0)

/-- Two calls in a row with the same divisor, stored outside the vector:
`scale_down(v, d); scale_down(v, d);`. -/
def scale_down_twice (v : List F64) (d : F64) : Option (List F64) :=
  (scale_down v (Ref.ext d)).bind fun v1 => scale_down v1 (Ref.ext d)

/-- The operation as the specification words it: every element is replaced by
its quotient with `d_original`, the value the divisor argument has when the
operation begins (a snapshot taken before any mutation). -/
def scale_down_snapshot (v : List F64) (a : Ref) : Option (List F64) :=
  (deref v a).map fun d_original => v.map fun x => x / d_original

/-! ## Binary64 arithmetic facts -/

namespace F64

/-- The count of `shiftCount` is the exponent `c` with `2 ^ (w c) ≤ n < 2 ^ (w (c + 1))`. -/
theorem shiftCount_eq (w : Nat) (hw : 0 < w) : ∀ (fuel n c : Nat), c ≤ fuel →
    2 ^ (w * c) ≤ n → n < 2 ^ (w * (c + 1)) → shiftCount w fuel n = c
  | 0, n, c, hf, _, _ => by
    have : c = 0 := by omega
    simp [shiftCount, this]
  | fuel + 1, n, c, hf, h1, h2 => by
    unfold shiftCount
    by_cases hn : n < 2 ^ w
    · rw [if_pos hn]
      rcases c with _ | c
      · rfl
      · have : 2 ^ w ≤ 2 ^ (w * (c + 1)) :=
          Nat.pow_le_pow_right (by decide) (Nat.le_mul_of_pos_right w (Nat.succ_pos c))
        omega
    · rw [if_neg hn]
      rcases c with _ | c
      · rw [Nat.zero_add, Nat.mul_one] at h2
        omega
      · have e1 : 2 ^ (w * (c + 1)) = 2 ^ (w * c) * 2 ^ w := by
          rw [← pow_add, Nat.mul_succ]
        have e2 : 2 ^ (w * (c + 1 + 1)) = 2 ^ (w * (c + 1)) * 2 ^ w := by
          rw [← pow_add, Nat.mul_succ w (c + 1)]
        have hpos : 0 < 2 ^ w := Nat.two_pow_pos w
        rw [shiftCount_eq w hw fuel (n / 2 ^ w) c (by omega)
          ((Nat.le_div_iff_mul_le hpos).mpr (by rw [← e1]; exact h1))
          ((Nat.div_lt_iff_lt_mul hpos).mpr (by rw [← e2]; exact h2))]

/-- The function `ilog2` is the floor of the base-2 logarithm. -/
theorem ilog2_eq (n j : Nat) (h1 : 2 ^ j ≤ n) (h2 : n < 2 ^ (j + 1)) : ilog2 n = j := by
  have hjn : j < n := Nat.lt_of_lt_of_le (Nat.lt_two_pow j) h1
  have hdm : 64 * (j / 64) + j % 64 = j := Nat.div_add_mod j 64
  have hlimbs : shiftCount 64 n n = j / 64 := by
    apply shiftCount_eq 64 (by decide) n n (j / 64) (by omega)
    · exact Nat.le_trans (Nat.pow_le_pow_right (by decide) (by omega)) h1
    · exact Nat.lt_of_lt_of_le h2 (Nat.pow_le_pow_right (by decide) (by omega))
  have hpos : 0 < 2 ^ (64 * (j / 64)) := Nat.two_pow_pos _
  have t1 : 2 ^ (j % 64) ≤ n / 2 ^ (64 * (j / 64)) := by
    rw [Nat.le_div_iff_mul_le hpos, ← pow_add, Nat.add_comm, hdm]
    exact h1
  have t2 : n / 2 ^ (64 * (j / 64)) < 2 ^ (j % 64 + 1) := by
    rw [Nat.div_lt_iff_lt_mul hpos, ← pow_add]
    have : j % 64 + 1 + 64 * (j / 64) = j + 1 := by omega
    rw [this]
    exact h2
  have htop : shiftCount 1 (n / 2 ^ (64 * (j / 64))) (n / 2 ^ (64 * (j / 64))) = j % 64 := by
    apply shiftCount_eq 1 (by decide) _ _ (j % 64)
    · exact Nat.le_of_lt (Nat.lt_of_lt_of_le (Nat.lt_two_pow _) t1)
    · rw [Nat.one_mul]
      exact t1
    · rw [Nat.one_mul]
      exact t2
  unfold ilog2
  simp only [hlimbs, htop]
  omega

/-- The function `ilog2` agrees with the library's binary logarithm. -/
theorem ilog2_eq_log2 (n : Nat) : ilog2 n = Nat.log2 n := by
  rcases Nat.eq_zero_or_pos n with h0 | h0
  · subst h0
    have h : Nat.log2 0 = 0 := by simp [Nat.log2]
    rw [h]
    rfl
  · exact ilog2_eq n _ (Nat.log2_self_le (by omega)) Nat.lt_log2_self

/-- The result of `rne` is within half a unit of the exact quotient, and when it is
exactly half a unit away it is even. -/
theorem rne_nearest (a b : Nat) (hb : 0 < b) :
    2 * (rne a b * b - a) ≤ b ∧ 2 * (a - rne a b * b) ≤ b ∧
    ((2 * (rne a b * b - a) = b ∨ 2 * (a - rne a b * b) = b) → rne a b % 2 = 0) := by
  have hdm : a / b * b + a % b = a := by
    rw [Nat.mul_comm]
    exact Nat.div_add_mod a b
  have hlt : a % b < b := Nat.mod_lt a hb
  have hsucc : (a / b + 1) * b = a / b * b + b := Nat.succ_mul _ _
  unfold rne
  simp only
  split_ifs with h1 h2 h3
  · refine ⟨by omega, by omega, fun h => ?_⟩
    omega
  · rw [hsucc]
    refine ⟨by omega, by omega, fun h => ?_⟩
    omega
  · refine ⟨by omega, by omega, fun _ => h3⟩
  · rw [hsucc]
    refine ⟨by omega, by omega, fun _ => ?_⟩
    omega

/-- The quantum chosen by `roundBits` leaves a significand of at most 53 bits, and of
exactly 53 bits above the subnormal range. -/
theorem roundBits_quantum (n d : Nat) :
    n / (d * 2 ^ (ilog2 (n / d) - 52)) < 2 ^ 53 ∧
    (0 < ilog2 (n / d) - 52 → 2 ^ 52 ≤ n / (d * 2 ^ (ilog2 (n / d) - 52))) := by
  rw [← Nat.div_div_eq_div_mul, ilog2_eq_log2]
  generalize n / d = Q
  have hpos : 0 < 2 ^ (Nat.log2 Q - 52) := Nat.two_pow_pos _
  constructor
  · rw [Nat.div_lt_iff_lt_mul hpos, ← pow_add]
    exact Nat.lt_of_lt_of_le Nat.lt_log2_self (Nat.pow_le_pow_right (by decide) (by omega))
  · intro hq
    have hQ : Q ≠ 0 := by
      rintro rfl
      simp [Nat.log2] at hq
    rw [Nat.le_div_iff_mul_le hpos, ← pow_add]
    have : 52 + (Nat.log2 Q - 52) = Nat.log2 Q := by omega
    rw [this]
    exact Nat.log2_self_le hQ

/-- Below `2 ^ 52` the logarithm is at most 51, so the quantum exponent is 0. -/
theorem ilog2_small (n : Nat) (h : n < 2 ^ 52) : ilog2 n - 52 = 0 := by
  rcases Nat.eq_zero_or_pos n with h0 | h0
  · subst h0
    rfl
  · have h1 : 2 ^ Nat.log2 n ≤ n := Nat.log2_self_le (by omega)
    have h2 : n < 2 ^ (Nat.log2 n + 1) := Nat.lt_log2_self
    rw [ilog2_eq n _ h1 h2]
    have : Nat.log2 n < 52 := by
      by_contra hc
      have : 2 ^ 52 ≤ 2 ^ Nat.log2 n := Nat.pow_le_pow_right (by decide) (by omega)
      omega
    omega

/-- An exact quotient is returned unchanged. -/
theorem rne_exact (t b : Nat) (hb : 0 < b) : rne (t * b) b = t := by
  simp [rne, Nat.mul_div_cancel _ hb, hb]

/-- Packing the exponent and fraction fields of a finite double gives the double back. -/
theorem ofBits_fields (neg : Bool) (e : Fin 2047) (m : Fin (2 ^ 52)) :
    ofBits neg (e.val * 2 ^ 52 + m.val) = finite neg e m := by
  have he := e.isLt
  have hm := m.isLt
  have h : e.val * 2 ^ 52 + m.val < 2047 * 2 ^ 52 := by omega
  unfold ofBits
  rw [dif_pos h]
  congr 1
  · apply Fin.ext
    show (e.val * 2 ^ 52 + m.val) / 2 ^ 52 = e.val
    omega
  · apply Fin.ext
    show (e.val * 2 ^ 52 + m.val) % 2 ^ 52 = m.val
    omega

/-- A magnitude that is exactly `r` quanta of `2 ^ q` units, where `r` is a 53-bit
significand (or `q = 0` and `r` is below `2 ^ 52`, the subnormal range), is not changed by
rounding. -/
theorem roundBits_exact (r d q : Nat) (hd : 0 < d)
    (hr : (2 ^ 52 ≤ r ∧ r < 2 ^ 53) ∨ (q = 0 ∧ r < 2 ^ 52)) :
    roundBits (r * (d * 2 ^ q)) d = q * 2 ^ 52 + r := by
  have hdiv : r * (d * 2 ^ q) / d = r * 2 ^ q := by
    rw [Nat.mul_left_comm, Nat.mul_div_cancel_left _ hd]
  have hq : ilog2 (r * 2 ^ q) - 52 = q := by
    rcases hr with ⟨h1, h2⟩ | ⟨h0, h2⟩
    · have e1 : 2 ^ (52 + q) ≤ r * 2 ^ q := by
        rw [pow_add]
        exact Nat.mul_le_mul_right _ h1
      have e2 : r * 2 ^ q < 2 ^ (52 + q + 1) := by
        have : 2 ^ (52 + q + 1) = 2 ^ 53 * 2 ^ q := by
          rw [← pow_add]
          congr 1
          omega
        rw [this]
        exact Nat.mul_lt_mul_of_pos_right h2 (Nat.two_pow_pos q)
      rw [ilog2_eq _ _ e1 e2]
      omega
    · subst h0
      simpa using ilog2_small r h2
  unfold roundBits
  simp only [hdiv, hq]
  rw [rne_exact r (d * 2 ^ q) (Nat.mul_pos hd (Nat.two_pow_pos q))]

/-- Only the two zeros have significand 0. -/
theorem sig_eq_zero (e : Fin 2047) (m : Fin (2 ^ 52)) (h : sig e m = 0) : e = 0 ∧ m = 0 := by
  unfold sig at h
  by_cases he : e.val = 0
  · rw [if_pos he] at h
    exact ⟨Fin.ext he, Fin.ext h⟩
  · rw [if_neg he] at h
    have : 0 < 2 ^ 52 := Nat.two_pow_pos 52
    omega

/-- The scaled significand of a non-zero finite double is positive. -/
theorem sig_pos_expo_pos (e : Fin 2047) (m : Fin (2 ^ 52)) (h : sig e m ≠ 0) :
    0 < sig e m * 2 ^ expo e :=
  Nat.mul_pos (Nat.pos_of_ne_zero h) (Nat.two_pow_pos _)

/-- The literal 0 is +0.0. -/
theorem zero_eq : (0 : F64) = finite false 0 0 := by
  show ofNat 0 = _
  simp [ofNat]

/-- The literal 1 is the double 1.0. -/
theorem one_eq : (1 : F64) = finite false 1023 0 := by
  decide

/-- A finite non-zero double divided by itself is exactly 1. -/
theorem div_self (s : Bool) (e : Fin 2047) (m : Fin (2 ^ 52)) (h : sig e m ≠ 0) :
    finite s e m / finite s e m = 1 := by
  rw [one_eq]
  show div (finite s e m) (finite s e m) = _
  simp only [div, h, if_false, Bool.xor_self]
  have hN : sig e m * 2 ^ expo e * 2 ^ 1074 = 2 ^ 52 * (sig e m * 2 ^ expo e * 2 ^ 1022) := by
    have : (2 : Nat) ^ 1074 = 2 ^ 52 * 2 ^ 1022 := by rw [← pow_add]
    rw [this]
    ac_rfl
  rw [hN, roundBits_exact (2 ^ 52) _ 1022 (sig_pos_expo_pos e m h)
    (Or.inl ⟨Nat.le_refl _, by decide⟩)]
  exact ofBits_fields false 1023 0

/-- The significand of a normal double carries the hidden bit. -/
theorem sig_normal (e : Fin 2047) (m : Fin (2 ^ 52)) (h : e.val ≠ 0) :
    sig e m = 2 ^ 52 + m.val := by
  simp [sig, h]

/-- The exponent of a normal double is its exponent field. -/
theorem expo_normal (e : Fin 2047) (h : e.val ≠ 0) : expo e = e.val := by
  simp [expo, h]

/-- Dividing a normal double by a power of two only shifts its exponent field, as long
as the quotient is normal. -/
theorem div_normal_pow2 (s t : Bool) (e p : Fin 2047) (m : Fin (2 ^ 52)) (r : Fin 2047)
    (he : e.val ≠ 0) (hp : p.val ≠ 0) (hr : r.val ≠ 0) (h : r.val + p.val = e.val + 1023) :
    finite s e m / finite t p 0 = finite (xor s t) r m := by
  show div (finite s e m) (finite t p 0) = _
  have hsx : sig e m ≠ 0 := by
    rw [sig_normal e m he]
    have := Nat.two_pow_pos 52
    omega
  have hsy : sig p 0 = 2 ^ 52 := by
    rw [sig_normal p 0 hp]
    rfl
  have hsy0 : sig p 0 ≠ 0 := by
    rw [hsy]
    exact Nat.ne_of_gt (Nat.two_pow_pos 52)
  simp only [div, hsy0, hsx, if_false]
  rw [hsy, sig_normal e m he, expo_normal e he, expo_normal p hp]
  have hN : (2 ^ 52 + m.val) * 2 ^ e.val * 2 ^ 1074 =
      (2 ^ 52 + m.val) * (2 ^ 52 * 2 ^ p.val * 2 ^ (r.val - 1)) := by
    have : (2 : Nat) ^ e.val * 2 ^ 1074 = 2 ^ 52 * 2 ^ p.val * 2 ^ (r.val - 1) := by
      rw [← pow_add, ← pow_add, ← pow_add]
      congr 1
      omega
    rw [Nat.mul_assoc, this]
  have hm := m.isLt
  rw [hN, roundBits_exact _ _ (r.val - 1) (Nat.mul_pos (Nat.two_pow_pos _) (Nat.two_pow_pos _))
    (Or.inl ⟨by omega, by omega⟩)]
  have hB : (r.val - 1) * 2 ^ 52 + (2 ^ 52 + m.val) = r.val * 2 ^ 52 + m.val := by
    omega
  rw [hB]
  exact ofBits_fields _ r m

/-- Dividing by 1 changes no double: NaN, infinities, zeros, subnormals and normals. -/
theorem div_one (x : F64) : x / 1 = x := by
  rw [one_eq]
  show div x (finite false 1023 0) = x
  match x with
  | nan => rfl
  | inf s => simp [div]
  | finite s e m =>
    have hs1 : sig 1023 0 = 2 ^ 52 := rfl
    have hs10 : sig 1023 0 ≠ 0 := by
      rw [hs1]
      exact Nat.ne_of_gt (Nat.two_pow_pos 52)
    by_cases h0 : sig e m = 0
    · obtain ⟨he, hm⟩ := sig_eq_zero e m h0
      subst he hm
      simp only [div, hs10, h0, if_false, if_true, Bool.xor_false]
    · by_cases he : e.val = 0
      · have hx1 : expo 1023 = 1023 := rfl
        have hsig : sig e m = m.val := by simp [sig, he]
        have hexp : expo e = 1 := by simp [expo, he]
        simp only [div, hs10, h0, if_false, Bool.xor_false]
        rw [hs1, hx1, hsig, hexp]
        have hN : m.val * 2 ^ 1 * 2 ^ 1074 = m.val * (2 ^ 52 * 2 ^ 1023 * 2 ^ 0) := by
          have : (2 : Nat) ^ 1 * 2 ^ 1074 = 2 ^ 52 * 2 ^ 1023 * 2 ^ 0 := by
            rw [← pow_add, ← pow_add, ← pow_add]
          rw [Nat.mul_assoc, this]
        rw [hN, roundBits_exact _ _ 0 (Nat.mul_pos (Nat.two_pow_pos _) (Nat.two_pow_pos _))
          (Or.inr ⟨rfl, m.isLt⟩)]
        have hB : 0 * 2 ^ 52 + m.val = (0 : Fin 2047).val * 2 ^ 52 + m.val := rfl
        have he0 : e = 0 := Fin.ext he
        rw [hB, ofBits_fields, he0]
      · have := div_normal_pow2 s false e 1023 m e he (by decide) he rfl
        simpa using this

/-- The square of a power of two is the power of two with twice the exponent, as long
as it is normal. -/
theorem mul_pow2_self (t : Bool) (p r : Fin 2047)
    (h : r.val + 1023 = p.val + p.val) :
    finite t p 0 * finite t p 0 = finite false r 0 := by
  show mul (finite t p 0) (finite t p 0) = _
  have hp : p.val ≠ 0 := by omega
  have hsy : sig p 0 = 2 ^ 52 := by
    rw [sig_normal p 0 hp]
    rfl
  have hsy0 : sig p 0 ≠ 0 := by
    rw [hsy]
    exact Nat.ne_of_gt (Nat.two_pow_pos 52)
  simp only [mul, hsy0, or_self, if_false, Bool.xor_self]
  rw [hsy, expo_normal p hp]
  have hN : 2 ^ 52 * 2 ^ 52 * 2 ^ (p.val + p.val) = 2 ^ 52 * (2 ^ 1076 * 2 ^ (r.val - 1)) := by
    rw [Nat.mul_assoc]
    congr 1
    rw [← pow_add, ← pow_add]
    congr 1
    omega
  rw [hN, roundBits_exact _ _ (r.val - 1) (Nat.two_pow_pos _)
    (Or.inl ⟨Nat.le_refl _, by decide⟩)]
  have hB : (r.val - 1) * 2 ^ 52 + 2 ^ 52 = r.val * 2 ^ 52 + (0 : Fin (2 ^ 52)).val := by
    show (r.val - 1) * 2 ^ 52 + 2 ^ 52 = r.val * 2 ^ 52 + 0
    omega
  rw [hB]
  exact ofBits_fields _ r 0

/-- The fields of the doubles that the literals 0, 1, 2, 3 and 4 convert to. -/
theorem literal_fields :
    (0 : F64) = finite false 0 0 ∧ (1 : F64) = finite false 1023 0 ∧
    (2 : F64) = finite false 1024 0 ∧ (3 : F64) = finite false 1024 ⟨2 ^ 51, by decide⟩ ∧
    (4 : F64) = finite false 1025 0 := by
  decide

/-- The value of a positive normal double. -/
theorem toRat_normal (e : Fin 2047) (m : Fin (2 ^ 52)) (k : Nat) (h : e.val = k + 1) :
    toRat (finite false e m) = some ((2 ^ 52 + m.val : ℚ) * 2 ^ (k + 1) / 2 ^ 1075) := by
  simp only [toRat, sig, expo, h, Nat.succ_ne_zero, if_false, Bool.false_eq_true, one_mul,
    Nat.cast_add, Nat.cast_pow, Nat.cast_ofNat]

/-- The constants used below denote the numbers they are named after. -/
theorem toRat_values :
    toRat 1 = some 1 ∧ toRat 2 = some 2 ∧ toRat 3 = some 3 ∧ toRat 4 = some 4 ∧
    toRat half = some (1 / 2) ∧ toRat oneAndHalf = some (3 / 2) := by
  obtain ⟨_, h1, h2, h3, h4⟩ := literal_fields
  rw [h1, h2, h3, h4, half, oneAndHalf]
  rw [toRat_normal _ _ 1022 rfl, toRat_normal _ _ 1023 rfl, toRat_normal _ _ 1023 rfl,
    toRat_normal _ _ 1024 rfl, toRat_normal _ _ 1021 rfl, toRat_normal _ _ 1022 rfl]
  have e0 : (2 : ℚ) ^ 1075 = 2 ^ 52 * (2 ^ 1021 * 4) := by
    rw [show (4 : ℚ) = 2 ^ 2 by norm_num, ← pow_add, ← pow_add]
  have e1 : (2 : ℚ) ^ (1021 + 1) = 2 ^ 1021 * 2 := by rw [pow_succ]
  have e2 : (2 : ℚ) ^ (1022 + 1) = 2 ^ 1021 * 4 := by rw [pow_succ, pow_succ]; ring
  have e3 : (2 : ℚ) ^ (1023 + 1) = 2 ^ 1021 * 8 := by rw [pow_succ, pow_succ, pow_succ]; ring
  have e4 : (2 : ℚ) ^ (1024 + 1) = 2 ^ 1021 * 16 := by
    rw [pow_succ, pow_succ, pow_succ, pow_succ]; ring
  have hp : (2 : ℚ) ^ 1021 ≠ 0 := pow_ne_zero _ (by norm_num)
  have hv : ((⟨2 ^ 51, by decide⟩ : Fin (2 ^ 52)).val : ℚ) = 2 ^ 51 := by
    show ((2 ^ 51 : Nat) : ℚ) = 2 ^ 51
    norm_num
  have hz : (((0 : Fin (2 ^ 52)).val : Nat) : ℚ) = 0 := by
    show ((0 : Nat) : ℚ) = 0
    norm_num
  rw [e0, e1, e2, e3, e4, hv, hz]
  generalize (2 : ℚ) ^ 1021 = P at hp
  refine ⟨?_, ?_, ?_, ?_, ?_, ?_⟩ <;> rw [Option.some.injEq] <;> field_simp <;> ring

/-- Sample quotients and products with their IEEE-754 binary64 results: 1/3 and 1/10
(rounded down and up), 5/3, 11/3, a subnormal quotient 1/DBL_MAX, overflow to infinity,
the two ties at the bottom of the subnormal range (to even), 3*3 and 0.1*0.1. -/
theorem known_answers :
    (1 : F64) / 3 = finite false 1021 ⟨0x5555555555555, by decide⟩ ∧
    (1 : F64) / ofNat 10 = finite false 1019 ⟨0x999999999999A, by decide⟩ ∧
    (ofNat 5 : F64) / 3 = finite false 1023 ⟨0xAAAAAAAAAAAAB, by decide⟩ ∧
    (ofNat 11 : F64) / 3 = finite false 1024 ⟨0xD555555555555, by decide⟩ ∧
    (1 : F64) / finite false 2046 ⟨0xFFFFFFFFFFFFF, by decide⟩ =
      finite false 0 ⟨0x4000000000000, by decide⟩ ∧
    finite false 2046 ⟨0xFFFFFFFFFFFFF, by decide⟩ / half = inf false ∧
    finite true 0 1 / 2 = finite true 0 0 ∧
    finite false 0 3 / 2 = finite false 0 2 ∧
    (3 : F64) * 3 = ofNat 9 ∧
    (1 : F64) / ofNat 10 * ((1 : F64) / ofNat 10) =
      finite false 1016 ⟨0x47AE147AE147C, by decide⟩ := by
  decide

/-- Division by +0.0, by the sign of the dividend. -/
theorem div_zero_cases (x : F64) :
    (x.isPos = true → x / finite false 0 0 = inf false) ∧
    (x.isNeg = true → x / finite false 0 0 = inf true) ∧
    (x.isZero = true → x / finite false 0 0 = nan) ∧
    (x / finite false 0 0 = inf false ∨ x / finite false 0 0 = inf true ∨
      x / finite false 0 0 = nan) := by
  show (_ → div x _ = _) ∧ (_ → div x _ = _) ∧ (_ → div x _ = _) ∧
    (div x _ = _ ∨ div x _ = _ ∨ div x _ = _)
  have hs0 : sig 0 0 = 0 := rfl
  cases x with
  | nan =>
    exact ⟨fun h => absurd h (by decide), fun h => absurd h (by decide),
      fun h => absurd h (by decide), Or.inr (Or.inr rfl)⟩
  | inf s =>
    cases s
    · exact ⟨fun _ => rfl, fun h => absurd h (by decide), fun h => absurd h (by decide),
        Or.inl rfl⟩
    · exact ⟨fun h => absurd h (by decide), fun _ => rfl, fun h => absurd h (by decide),
        Or.inr (Or.inl rfl)⟩
  | finite s e m =>
    by_cases h0 : sig e m = 0
    · have hdiv : div (finite s e m) (finite false 0 0) = nan := by
        simp only [div, hs0, h0, if_true]
      rw [hdiv]
      refine ⟨fun h => ?_, fun h => ?_, fun _ => rfl, Or.inr (Or.inr rfl)⟩
      · cases s <;> simp [isPos, h0] at h
      · cases s <;> simp [isNeg, h0] at h
    · have hdiv : div (finite s e m) (finite false 0 0) = inf s := by
        simp only [div, hs0, h0, if_true, if_false, Bool.xor_false]
      rw [hdiv]
      refine ⟨fun h => ?_, fun h => ?_, fun h => ?_, ?_⟩
      · cases s
        · rfl
        · simp [isPos] at h
      · cases s
        · simp [isNeg] at h
        · rfl
      · simp [isZero, h0] at h
      · cases s
        · exact Or.inl rfl
        · exact Or.inr (Or.inl rfl)

/-- Two divisions by a power of two `d` agree with one division by `d * d` on every
double that `exactQuot` admits. -/
theorem div_div_pow2 (x : F64) (t : Bool) (p r : Fin 2047)
    (h : r.val + 1023 = p.val + p.val) (hx : exactQuot r.val x = true) :
    x / finite t p 0 / finite t p 0 = x / (finite t p 0 * finite t p 0) := by
  rw [mul_pow2_self t p r h]
  have hp : p.val ≠ 0 := by omega
  have hr : r.val ≠ 0 := by omega
  have hsp : sig p 0 ≠ 0 := by
    rw [sig_normal p 0 hp]
    exact Nat.ne_of_gt (Nat.add_pos_left (Nat.two_pow_pos 52) _)
  have hsr : sig r 0 ≠ 0 := by
    rw [sig_normal r 0 hr]
    exact Nat.ne_of_gt (Nat.add_pos_left (Nat.two_pow_pos 52) _)
  cases x with
  | nan => rfl
  | inf s =>
    show div (div (inf s) _) _ = div (inf s) _
    simp only [div]
    cases s <;> cases t <;> rfl
  | finite s e m =>
    by_cases h0 : sig e m = 0
    · show div (div (finite s e m) _) _ = div (finite s e m) _
      have hz : sig 0 0 = 0 := rfl
      simp only [div, hsp, hsr, h0, hz, if_true, if_false]
      cases s <;> cases t <;> rfl
    · have hc : (e.val ≠ 0 ∧ r.val < e.val + 1023) ∧ e.val ≤ r.val + 1023 := by
        simpa [exactQuot, h0] using hx
      obtain ⟨⟨he, hlo⟩, hhi⟩ := hc
      have he1 : e.val + 1023 - p.val < 2047 := by omega
      have he2 : e.val + 1023 - r.val < 2047 := by omega
      have hp2 := p.isLt
      rw [div_normal_pow2 s t e p m ⟨e.val + 1023 - p.val, he1⟩ he hp
          (by show e.val + 1023 - p.val ≠ 0; omega)
          (by show e.val + 1023 - p.val + p.val = e.val + 1023; omega),
        div_normal_pow2 (xor s t) t ⟨e.val + 1023 - p.val, he1⟩ p m
          ⟨e.val + 1023 - r.val, he2⟩
          (by show e.val + 1023 - p.val ≠ 0; omega) hp
          (by show e.val + 1023 - r.val ≠ 0; omega)
          (by show e.val + 1023 - r.val + p.val = e.val + 1023 - p.val + 1023; omega),
        div_normal_pow2 s false e r m ⟨e.val + 1023 - r.val, he2⟩ he hr
          (by show e.val + 1023 - r.val ≠ 0; omega)
          (by show e.val + 1023 - r.val + r.val = e.val + 1023; omega)]
      cases s <;> cases t <;> rfl

end F64

/-! ## The loop -/

/-- The element right after a prefix `pre` is at index `pre.length`. -/
theorem getElem?_zip (pre : List F64) (x : F64) (xs : List F64) :
    (pre ++ x :: xs)[pre.length]? = some x := by
  rw [List.getElem?_append_right (Nat.le_refl _)]
  simp

/-- Writing at index `pre.length` replaces the element right after the prefix. -/
theorem set_zip (pre : List F64) (x y : F64) (xs : List F64) :
    (pre ++ x :: xs).set pre.length y = (pre ++ [y]) ++ xs := by
  simp

/-- One iteration of the loop, with the iterator after the prefix `pre`. -/
theorem loop_step (a : Ref) (n : Nat) (pre : List F64) (x d : F64) (xs : List F64)
    (log : List DivOp) (hd : deref (pre ++ x :: xs) a = some d) :
    scale_down_loop a (n + 1) pre.length (pre ++ x :: xs) log =
      scale_down_loop a n (pre ++ [x / d]).length ((pre ++ [x / d]) ++ xs)
        (log ++ [⟨pre.length, x, d⟩]) := by
  rw [scale_down_loop, getElem?_zip, hd]
  simp only [set_zip, List.length_append, List.length_singleton]

/-- When the divisor reference reads `d` whatever is written behind the iterator, the
rest of the loop divides every remaining element by `d`. -/
theorem loop_stable (a : Ref) (d : F64) : ∀ (post pre : List F64) (log : List DivOp),
    (∀ xs, deref (pre ++ xs) a = some d) →
    (scale_down_loop a post.length pre.length (pre ++ post) log).map Prod.fst =
      some (pre ++ post.map (· / d))
  | [], pre, log, _ => by simp [scale_down_loop]
  | x :: xs, pre, log, h => by
    rw [List.length_cons, loop_step a xs.length pre x d xs log (h _),
      loop_stable a d xs (pre ++ [x / d]) _ (fun ys => by simpa using h (x / d :: ys))]
    simp

/-- The loop with the divisor bound to an element `x` that the iterator has not passed
yet: the elements before it are divided by `x`, the element itself becomes `x / x`, and
the elements after it are divided by `x / x`. -/
theorem loop_alias (x : F64) (rest : List F64) : ∀ (mid pre : List F64) (log : List DivOp),
    (scale_down_loop (Ref.elem (pre.length + mid.length)) (mid.length + (rest.length + 1))
        pre.length (pre ++ (mid ++ x :: rest)) log).map Prod.fst =
      some (pre ++ (mid.map (· / x) ++ (x / x) :: rest.map (· / (x / x))))
  | [], pre, log => by
    have hd : deref (pre ++ x :: rest) (Ref.elem pre.length) = some x := getElem?_zip pre x rest
    have h := loop_stable (Ref.elem pre.length) (x / x) rest (pre ++ [x / x])
      (log ++ [⟨pre.length, x, x⟩]) (fun ys => by
        have := getElem?_zip pre (x / x) ys
        simpa [deref] using this)
    simp only [List.length_nil, Nat.add_zero, Nat.zero_add, List.nil_append, List.map_nil]
    rw [loop_step _ rest.length pre x x rest log hd, h]
    simp
  | m :: ms, pre, log => by
    have hd : deref (pre ++ m :: (ms ++ x :: rest)) (Ref.elem (pre.length + (ms.length + 1)))
        = some x := by
      have := getElem?_zip (pre ++ m :: ms) x rest
      simpa [deref, Nat.add_assoc] using this
    have h := loop_alias x rest ms (pre ++ [m / x]) (log ++ [⟨pre.length, m, x⟩])
    simp only [List.length_append, List.length_singleton] at h
    have e1 : (m :: ms).length + (rest.length + 1) = (ms.length + (rest.length + 1)) + 1 := by
      simp; omega
    have e2 : pre.length + (m :: ms).length = pre.length + 1 + ms.length := by
      simp; omega
    rw [e1, e2, List.cons_append,
      loop_step _ _ pre m x _ log (by rw [← hd]; congr 1; simp; omega)]
    simp only [List.length_append, List.length_singleton]
    rw [h]
    simp

/-- A reference the caller may pass can be read in every state of the vector. -/
theorem deref_isSome (S v : List F64) (a : Ref) (h : RefOk S a) (hv : v.length = S.length) :
    ∃ d, deref v a = some d := by
  cases a with
  | ext d => exact ⟨d, rfl⟩
  | elem k =>
    have hk : k < v.length := by simpa [RefOk, hv] using h
    exact ⟨v[k], by simp [deref, hk]⟩

/-- Invariant of the loop for an arbitrary divisor reference: it ends, keeps the prefix
behind the iterator, and after `i` further iterations the first `i` remaining elements
hold their final values, the others their original ones; iteration `i` divides the
original element by what the reference reads in that state and logs the division. -/
theorem loop_general (a : Ref) : ∀ (post pre : List F64) (log : List DivOp),
    (∀ v : List F64, v.length = pre.length + post.length → ∃ d, deref v a = some d) →
    ∃ R L, scale_down_loop a post.length pre.length (pre ++ post) log = some (pre ++ R, log ++ L) ∧
      R.length = post.length ∧ L.length = post.length ∧
      ∀ i (h : i < post.length), ∃ d,
        scale_down_loop a i pre.length (pre ++ post) log =
          some (pre ++ (R.take i ++ post.drop i), log ++ L.take i) ∧
        deref (pre ++ (R.take i ++ post.drop i)) a = some d ∧
        R[i]? = some (post[i] / d) ∧ L[i]? = some ⟨pre.length + i, post[i], d⟩
  | [], pre, log, _ => ⟨[], [], by simp [scale_down_loop]⟩
  | x :: xs, pre, log, hv => by
    obtain ⟨d, hd⟩ := hv (pre ++ x :: xs) (by simp)
    obtain ⟨R, L, hrun, hR, hL, hidx⟩ := loop_general a xs (pre ++ [x / d])
      (log ++ [⟨pre.length, x, d⟩]) (fun v h => hv v (by
        simp only [List.length_append, List.length_cons, List.length_nil] at h ⊢
        omega))
    refine ⟨x / d :: R, ⟨pre.length, x, d⟩ :: L, ?_, by simp [hR], by simp [hL], ?_⟩
    · rw [List.length_cons, loop_step a xs.length pre x d xs log hd, hrun]
      simp
    · intro i h
      cases i with
      | zero => exact ⟨d, by simp [scale_down_loop], by simpa using hd, by simp, by simp⟩
      | succ j =>
        have hj : j < xs.length := by simpa using h
        obtain ⟨dj, h0, h1, h2, h3⟩ := hidx j hj
        refine ⟨dj, ?_, ?_, by simpa using h2, ?_⟩
        · rw [loop_step a j pre x d xs log hd, h0]
          simp
        · simpa using h1
        · have e : pre.length + (j + 1) = (pre ++ [x / d]).length + j := by
            simp only [List.length_append, List.length_cons, List.length_nil]
            omega
          rw [e]
          simpa using h3

/-- With the divisor stored outside the vector the result is the element-wise quotient. -/
theorem scale_down_ext (S : List F64) (d : F64) :
    scale_down S (Ref.ext d) = some (S.map (· / d)) := by
  have h := loop_stable (Ref.ext d) d S [] [] (fun _ => rfl)
  simpa [scale_down, scale_down_run] using h

/-- With the divisor bound to `S[k]` the result has three parts: quotients by `S[k]`,
then `S[k] / S[k]`, then quotients by `S[k] / S[k]`. -/
theorem scale_down_elem (S : List F64) (k : Nat) (hk : k < S.length) :
    scale_down S (Ref.elem k) =
      some ((S.take k).map (· / S[k]) ++
        (S[k] / S[k]) :: (S.drop (k + 1)).map (· / (S[k] / S[k]))) := by
  have hS : S = S.take k ++ S[k] :: S.drop (k + 1) := by simp
  have hlen : (S.take k).length = k := by simp; omega
  have h := loop_alias S[k] (S.drop (k + 1)) (S.take k) [] []
  simp only [List.nil_append, List.length_nil, Nat.zero_add] at h
  rw [← hS, hlen] at h
  have hn : k + ((S.drop (k + 1)).length + 1) = S.length := by simp; omega
  rw [hn] at h
  simpa [scale_down, scale_down_run] using h

/-- Indexing into the three-part result of `scale_down_elem`. -/
theorem aliased_getElem? (S : List F64) (k : Nat) (hk : k < S.length) (f g : F64 → F64)
    (y : F64) (i : Nat) (hi : i < S.length) :
    ((S.take k).map f ++ y :: (S.drop (k + 1)).map g)[i]? =
      some (if i < k then f S[i] else if i = k then y else g S[i]) := by
  have hlen : ((S.take k).map f).length = k := by
    simp only [List.length_map, List.length_take]
    omega
  by_cases h1 : i < k
  · rw [List.getElem?_append_left (by omega), if_pos h1]
    simp [List.getElem?_take, h1, hi]
  · rw [List.getElem?_append_right (by omega), hlen, if_neg h1]
    by_cases h2 : i = k
    · subst h2
      simp
    · rw [if_neg h2]
      obtain ⟨j, rfl⟩ : ∃ j, i = k + 1 + j := ⟨i - (k + 1), by omega⟩
      have e : k + 1 + j - k = j + 1 := by omega
      have hj : k + 1 + j < S.length := hi
      simp [e, hj]

/-- Two calls with the same outside divisor divide every element twice. -/
theorem scale_down_twice_eq (S : List F64) (d : F64) :
    scale_down_twice S d = some (S.map fun x => x / d / d) := by
  simp [scale_down_twice, scale_down_ext]

/-! ## Properties of scale_down -/

/-- C1, evaluated on the code: with the divisor bound to `S[0]` of `S = [2, 1, 2, 3, 4]`
(the call of `scale_down_example`), the divisor's value when the call begins is 2, yet the
call ends with `[1, 1, 2, 3, 4]`; position 1 holds `1 / 1`, not `1 / 2`. So the code does
not, for every sequence and every divisor argument, end with every element divided by the
divisor's initial value. -/
theorem scale_down_alias_not_fixed :
    deref [2, 1, 2, 3, 4] (Ref.elem 0) = some 2 ∧
    scale_down [2, 1, 2, 3, 4] (Ref.elem 0) = some [2 / 2, 1 / (2 / 2), 2 / 1, 3 / 1, 4 / 1] ∧
    (1 : F64) / (2 / 2) ≠ 1 / 2 ∧
    scale_down [2, 1, 2, 3, 4] (Ref.elem 0) ≠ scale_down_snapshot [2, 1, 2, 3, 4] (Ref.elem 0) ∧
    ¬ ∀ (S : List F64) (a : Ref), RefOk S a → scale_down S a = scale_down_snapshot S a :=
  ⟨by decide, by decide, by decide, by decide,
    fun h => absurd (h [2, 1, 2, 3, 4] (Ref.elem 0) (by decide)) (by decide)⟩

/-- C2, evaluated on the code: `scale_down_example` leaves `v = [1, 1, 2, 3, 4]`, whereas
dividing every element by the original first element 2 gives `[1, 0.5, 1, 1.5, 2]`, which
is what the snapshot version produces. -/
theorem scale_down_example_result :
    scale_down_example = some [1, 1, 2, 3, 4] ∧
    scale_down_example ≠ some [1, F64.half, 1, F64.oneAndHalf, 2] ∧
    scale_down_snapshot [2, 1, 2, 3, 4] (Ref.elem 0) =
      some [1, F64.half, 1, F64.oneAndHalf, 2] := by
  decide

/-- C3: for a non-empty `S` and a divisor `d ≠ 0` stored outside `S`, `scale_down(S, d)`
ends with the element-wise quotient: `result[i] = S[i] / d` at every index. -/
theorem scale_down_unaliased (S : List F64) (d : F64) (_hS : S ≠ []) (_hd : d.isZero = false) :
    ∃ R, scale_down S (Ref.ext d) = some R ∧ R = S.map (fun x => x / d) ∧
      R.length = S.length ∧ ∀ i (h : i < S.length), R[i]? = some (S[i] / d) := by
  refine ⟨_, scale_down_ext S d, rfl, by simp, ?_⟩
  intro i h
  simp [h]

/-- C3 at `S = [3, 4]`, `d = 2`. -/
theorem scale_down_unaliased_witness :
    ([3, 4] : List F64) ≠ [] ∧ F64.isZero 2 = false ∧
    ∃ R, scale_down [3, 4] (Ref.ext 2) = some R ∧ R = [3, 4].map (fun x => x / 2) ∧
      R.length = [3, 4].length ∧
      ∀ i (h : i < [3, 4].length), R[i]? = some (([3, 4] : List F64)[i] / 2) :=
  ⟨by decide, by decide, scale_down_unaliased [3, 4] 2 (by decide) (by decide)⟩

/-- C4: on the empty sequence `scale_down` ends with the empty sequence and executes no
division, whatever the divisor argument is bound to (the loop body never runs, so the
divisor is never read). -/
theorem scale_down_empty (a : Ref) :
    scale_down [] a = some [] ∧ scale_down_run [] a = some ([], []) :=
  ⟨rfl, rfl⟩

/-- C5: `scale_down` never fails: for every sequence and every divisor argument (any
double outside the sequence, zero, infinite or NaN included, or any element of the
sequence) the call completes with a sequence of the same length, never with an error. -/
theorem scale_down_total (S : List F64) (a : Ref) (ha : RefOk S a) :
    ∃ R, scale_down S a = some R ∧ R.length = S.length := by
  obtain ⟨R, L, hrun, hR, -⟩ := loop_general a S [] []
    (fun v hv => deref_isSome S v a ha (by simpa using hv))
  refine ⟨R, ?_, hR⟩
  simp only [List.nil_append, List.length_nil] at hrun
  simp [scale_down, scale_down_run, hrun]

/-- C5 at `S = [1, 0]` with the divisor bound to the zero element `S[1]`. -/
theorem scale_down_total_witness :
    RefOk [1, 0] (Ref.elem 1) ∧
    ∃ R, scale_down [1, 0] (Ref.elem 1) = some R ∧ R.length = ([1, 0] : List F64).length :=
  ⟨by decide, scale_down_total [1, 0] (Ref.elem 1) (by decide)⟩

/-- C6: dividing by zero (the double `0`, i.e. +0.0, stored outside the sequence) turns
every positive element into +infinity, every negative element into -infinity and every
zero element into NaN; every element of the result is an infinity or NaN. -/
theorem scale_down_zero_divisor (S : List F64) :
    ∃ R, scale_down S (Ref.ext 0) = some R ∧ R.length = S.length ∧
      ∀ i (h : i < S.length),
        (S[i].isPos = true → R[i]? = some (F64.inf false)) ∧
        (S[i].isNeg = true → R[i]? = some (F64.inf true)) ∧
        (S[i].isZero = true → R[i]? = some F64.nan) ∧
        (R[i]? = some (F64.inf false) ∨ R[i]? = some (F64.inf true) ∨ R[i]? = some F64.nan) := by
  rw [F64.zero_eq]
  refine ⟨_, scale_down_ext S _, by simp, ?_⟩
  intro i h
  have hR : (S.map (fun x => x / F64.finite false 0 0))[i]? =
      some (S[i] / F64.finite false 0 0) := by
    simp only [List.getElem?_map, List.getElem?_eq_getElem h, Option.map_some']
  rw [hR]
  simpa using F64.div_zero_cases S[i]

/-- C6 at `S = [3, -3, 0, -0.0]`: the result is `[+inf, -inf, NaN, NaN]`. -/
theorem scale_down_zero_divisor_witness :
    scale_down [3, F64.finite true 1024 ⟨2 ^ 51, by decide⟩, 0, F64.finite true 0 0] (Ref.ext 0) =
      some [F64.inf false, F64.inf true, F64.nan, F64.nan] ∧
    ∃ R, scale_down [3, F64.finite true 1024 ⟨2 ^ 51, by decide⟩, 0, F64.finite true 0 0]
        (Ref.ext 0) = some R ∧ R.length = 4 :=
  ⟨by decide, (scale_down_zero_divisor
    [3, F64.finite true 1024 ⟨2 ^ 51, by decide⟩, 0, F64.finite true 0 0]).imp
      fun _ h => ⟨h.1, h.2.1⟩⟩

/-- C8: the divisor is read through the reference on every iteration, so with the divisor
bound to `S[k]` the result is `S[i] / S[k]` before `k`, `S[k] / S[k]` at `k`, and
`S[i] / (S[k] / S[k])` after `k`. For `k = 0` and a finite non-zero `S[0]` it is
`[1, S[1], ..., S[n-1]]`, and for the example `[2, 1, 2, 3, 4]` it is `[1, 1, 2, 3, 4]`. -/
theorem scale_down_aliased (S : List F64) (k : Nat) (hk : k < S.length) :
    ∃ R, scale_down S (Ref.elem k) = some R ∧ R.length = S.length ∧
      (∀ i (h : i < S.length), i < k → R[i]? = some (S[i] / S[k])) ∧
      R[k]? = some (S[k] / S[k]) ∧
      (∀ i (h : i < S.length), k < i → R[i]? = some (S[i] / (S[k] / S[k]))) ∧
      (k = 0 → S[k].isFinite = true → S[k].isZero = false → R = 1 :: S.tail) ∧
      scale_down_example = some [1, 1, 2, 3, 4] := by
  refine ⟨_, scale_down_elem S k hk, ?_, ?_, ?_, ?_, ?_, by decide⟩
  · simp only [List.length_append, List.length_map, List.length_take, List.length_cons,
      List.length_drop]
    omega
  · intro i h hik
    rw [aliased_getElem? S k hk _ _ _ i h, if_pos hik]
  · rw [aliased_getElem? S k hk _ _ _ k hk, if_neg (Nat.lt_irrefl k), if_pos rfl]
  · intro i h hki
    rw [aliased_getElem? S k hk _ _ _ i h, if_neg (by omega), if_neg (by omega)]
  · intro h0 hfin hnz
    subst h0
    match S, hk, hfin, hnz with
    | x :: xs, _, hfin, hnz =>
      have hx : x / x = 1 := by
        match x, hfin, hnz with
        | F64.finite s e m, _, hnz =>
          exact F64.div_self s e m (by simpa [F64.isZero] using hnz)
      simp [hx, F64.div_one]

/-- C8 at `S = [2, 1, 2, 3, 4]`, `k = 0`. -/
theorem scale_down_aliased_witness :
    0 < ([2, 1, 2, 3, 4] : List F64).length ∧
    ∃ R, scale_down [2, 1, 2, 3, 4] (Ref.elem 0) = some R ∧
      R.length = ([2, 1, 2, 3, 4] : List F64).length ∧
      (∀ i (h : i < ([2, 1, 2, 3, 4] : List F64).length), i < 0 →
        R[i]? = some (([2, 1, 2, 3, 4] : List F64)[i] / ([2, 1, 2, 3, 4] : List F64)[0])) ∧
      R[0]? = some (([2, 1, 2, 3, 4] : List F64)[0] / ([2, 1, 2, 3, 4] : List F64)[0]) ∧
      (∀ i (h : i < ([2, 1, 2, 3, 4] : List F64).length), 0 < i →
        R[i]? = some (([2, 1, 2, 3, 4] : List F64)[i] /
          (([2, 1, 2, 3, 4] : List F64)[0] / ([2, 1, 2, 3, 4] : List F64)[0]))) ∧
      (0 = 0 → ([2, 1, 2, 3, 4] : List F64)[0].isFinite = true →
        ([2, 1, 2, 3, 4] : List F64)[0].isZero = false →
        R = 1 :: ([2, 1, 2, 3, 4] : List F64).tail) ∧
      scale_down_example = some [1, 1, 2, 3, 4] :=
  ⟨by decide, scale_down_aliased [2, 1, 2, 3, 4] 0 (by decide)⟩

/-- C9: for every sequence and every divisor argument the caller may pass, the call ends
with a sequence of the same length, having executed exactly one division per position in
increasing index order; before the division at position `i` the first `i` positions hold
their final values and the rest their original ones, and position `i` ends as the
original `S[i]` divided by what the divisor reference reads in that state. -/
theorem scale_down_shape (S : List F64) (a : Ref) (ha : RefOk S a) :
    ∃ R log, scale_down_run S a = some (R, log) ∧ scale_down S a = some R ∧
      R.length = S.length ∧ log.length = S.length ∧
      ∀ i (h : i < S.length), ∃ d,
        scale_down_loop a i 0 S [] = some (R.take i ++ S.drop i, log.take i) ∧
        deref (R.take i ++ S.drop i) a = some d ∧
        R[i]? = some (S[i] / d) ∧ log[i]? = some ⟨i, S[i], d⟩ := by
  obtain ⟨R, L, hrun, hR, hL, hidx⟩ := loop_general a S [] []
    (fun v hv => deref_isSome S v a ha (by simpa using hv))
  simp only [List.nil_append, List.length_nil] at hrun hidx
  refine ⟨R, L, hrun, by simp [scale_down, scale_down_run, hrun], hR, hL, ?_⟩
  intro i h
  obtain ⟨d, h0, h1, h2, h3⟩ := hidx i h
  exact ⟨d, h0, h1, h2, by simpa using h3⟩

/-- C9 at `S = [2, 1, 2, 3, 4]` with the divisor bound to `S[0]`. -/
theorem scale_down_shape_witness :
    RefOk [2, 1, 2, 3, 4] (Ref.elem 0) ∧
    ∃ R log, scale_down_run [2, 1, 2, 3, 4] (Ref.elem 0) = some (R, log) ∧
      scale_down [2, 1, 2, 3, 4] (Ref.elem 0) = some R ∧
      R.length = ([2, 1, 2, 3, 4] : List F64).length ∧
      log.length = ([2, 1, 2, 3, 4] : List F64).length ∧
      ∀ i (h : i < ([2, 1, 2, 3, 4] : List F64).length), ∃ d,
        scale_down_loop (Ref.elem 0) i 0 [2, 1, 2, 3, 4] [] =
          some (R.take i ++ ([2, 1, 2, 3, 4] : List F64).drop i, log.take i) ∧
        deref (R.take i ++ ([2, 1, 2, 3, 4] : List F64).drop i) (Ref.elem 0) = some d ∧
        R[i]? = some (([2, 1, 2, 3, 4] : List F64)[i] / d) ∧
        log[i]? = some ⟨i, ([2, 1, 2, 3, 4] : List F64)[i], d⟩ :=
  ⟨by decide, scale_down_shape [2, 1, 2, 3, 4] (Ref.elem 0) (by decide)⟩

/-- C10: with the divisor bound to `S[k]`, the code agrees with the snapshot version at
every position up to and including `k`, where it holds `S[i] / S[k]`; when `k` is the
last index the two results are equal on the whole sequence. -/
theorem scale_down_agrees_up_to_alias (S : List F64) (k : Nat) (hk : k < S.length) :
    ∃ R R', scale_down S (Ref.elem k) = some R ∧
      scale_down_snapshot S (Ref.elem k) = some R' ∧
      (∀ i (h : i < S.length), i ≤ k → R[i]? = some (S[i] / S[k])) ∧
      (∀ i, i ≤ k → R[i]? = R'[i]?) ∧
      (k + 1 = S.length → R = R') := by
  have hsnap : scale_down_snapshot S (Ref.elem k) = some (S.map fun x => x / S[k]) := by
    simp [scale_down_snapshot, deref, hk]
  have hpre : ∀ i (h : i < S.length), i ≤ k →
      ((S.take k).map (· / S[k]) ++
        (S[k] / S[k]) :: (S.drop (k + 1)).map (· / (S[k] / S[k])))[i]? = some (S[i] / S[k]) := by
    intro i h hik
    rw [aliased_getElem? S k hk _ _ _ i h]
    by_cases h1 : i < k
    · rw [if_pos h1]
    · have : i = k := by omega
      subst this
      rw [if_neg h1, if_pos rfl]
  refine ⟨_, _, scale_down_elem S k hk, hsnap, hpre, ?_, ?_⟩
  · intro i hik
    have h : i < S.length := by omega
    rw [hpre i h hik]
    simp [h]
  · intro hlast
    apply List.ext_getElem?
    intro i
    by_cases h : i < S.length
    · rw [hpre i h (by omega)]
      simp [h]
    · rw [List.getElem?_eq_none (by simp; omega), List.getElem?_eq_none (by simp; omega)]

/-- C10 at `S = [1, 3, 2]` with the divisor bound to the last element. -/
theorem scale_down_agrees_up_to_alias_witness :
    2 < ([1, 3, 2] : List F64).length ∧
    ∃ R R', scale_down [1, 3, 2] (Ref.elem 2) = some R ∧
      scale_down_snapshot [1, 3, 2] (Ref.elem 2) = some R' ∧
      (∀ i (h : i < ([1, 3, 2] : List F64).length), i ≤ 2 →
        R[i]? = some (([1, 3, 2] : List F64)[i] / ([1, 3, 2] : List F64)[2])) ∧
      (∀ i, i ≤ 2 → R[i]? = R'[i]?) ∧
      (2 + 1 = ([1, 3, 2] : List F64).length → R = R') :=
  ⟨by decide, scale_down_agrees_up_to_alias [1, 3, 2] 2 (by decide)⟩

/-- C7 as stated fails: for `S = [11]`, `d = 3` two applications give `(11 / 3) / 3`, one
unit in the last place below `11 / 9`, which is what one application with `d * d = 9`
gives. -/
theorem scale_down_twice_not_square :
    scale_down_twice [11] 3 = some [F64.finite false 1023 ⟨1000799917193443, by decide⟩] ∧
    scale_down [11] (Ref.ext (3 * 3)) =
      some [F64.finite false 1023 ⟨1000799917193444, by decide⟩] ∧
    scale_down_twice [11] 3 ≠ scale_down [11] (Ref.ext (3 * 3)) := by
  decide

/-- C7, amended: two applications with the same divisor `d` stored outside the sequence
leave `(S[i] / d) / d` at every position. This is the result of one application with
divisor `d * d` when `d` is a power of two whose square is a normal double and every
element is NaN, infinite, zero, or a normal double whose quotient by `d * d` is in the
normal range. `scale_down` is not idempotent: for `S = [2]`, `d = 2` two applications give
`[0.5]` and one gives `[1]`. -/
theorem scale_down_twice_amended :
    (∀ (S : List F64) (d : F64), scale_down_twice S d = some (S.map fun x => x / d / d)) ∧
    (∀ (S : List F64) (t : Bool) (p r : Fin 2047), r.val + 1023 = p.val + p.val →
      (∀ x ∈ S, F64.exactQuot r.val x = true) →
      scale_down_twice S (F64.finite t p 0) =
        scale_down S (Ref.ext (F64.finite t p 0 * F64.finite t p 0))) ∧
    (scale_down_twice [2] 2 = some [F64.half] ∧ scale_down [2] (Ref.ext 2) = some [1] ∧
      scale_down_twice [2] 2 ≠ scale_down [2] (Ref.ext 2)) := by
  refine ⟨scale_down_twice_eq, ?_, by decide⟩
  intro S t p r h hS
  rw [scale_down_twice_eq, scale_down_ext]
  congr 1
  apply List.map_congr_left
  intro x hx
  exact F64.div_div_pow2 x t p r h (hS x hx)

/-- C7, amended, at `S = [3, 0]`, `d = 4`: both sides are `[3 / 16, 0]`. -/
theorem scale_down_twice_amended_witness :
    (4 : F64) = F64.finite false 1025 0 ∧
    scale_down_twice [3, 0] (F64.finite false 1025 0) =
      scale_down [3, 0] (Ref.ext (F64.finite false 1025 0 * F64.finite false 1025 0)) :=
  ⟨by decide, scale_down_twice_amended.2.1 [3, 0] false 1025 1027 (by decide) (by decide)⟩
